import Mathlib

/-!
# Verification of the Weil explicit-formula core (prime-qecc-v2)

Shallow embedding of the four numerical modules of the repository
(`weil_primes.py`, `weil_zeros.py`, `weil_archimedean.py`, `weil_functional.py`).

Modelling conventions:

* `mpmath.mpf` arbitrary-precision reals are modelled as exact real numbers `ℝ`;
  the literals `mpf('1e-50')`, `mpf('1e-15')` and `mpf(10) ** (-mp.dps)` are
  modelled as the exact rationals `1 / 10 ^ 50`, `1 / 10 ^ 15`, `1 / 10 ^ dps`.
* the ambient precision `mpmath.mp.dps` is threaded explicitly as a `dps : ℕ`
  parameter into the functions that read it.
* the Python boolean array `is_prime` of the sieve is modelled as a flag
  function `ℕ → Bool` (index ↦ entry), updated pointwise; `int(limit ** 0.5)`
  is modelled as `Nat.sqrt limit` (for every bound `limit` reachable from
  `max 15000 (20 * n)` the two agree, and an off-by-one high value would mark
  an empty multiple range, leaving the result unchanged).
* Python `for`-loops over `range(a, b)` / `range(a, b, s)` are modelled as
  folds over `List.range' a (length) s`; an early `break` becomes a
  non-recursive branch of the fold function.
* `mpmath.quad(integrand, [-120, 120])` is modelled by its ideal semantics,
  the interval integral `∫ x in (-120)..120` of the integrand.
* Python `dict`s are modelled as insertion-ordered association lists; the
  result dictionary of the orchestrator, whose values have heterogeneous
  types, takes values in the sum type `PyVal`.
* the source stores `float(prime_term)` (a native binary64 float) in the
  per-prime contribution dictionary; the truncation to binary64 is a machine
  representation aspect that is not modelled: the stored scalar is modelled
  as the exact real it truncates.
-/

/-! ## PrimesContribution.first_primes (weil_primes.py, lines 12-25) -/

/-- `limit = max(15000, n * 20)`, the heuristic sieve bound. -/
def sieveLimit (n : ℕ) : ℕ := max 15000 (n * 20)

/-- `is_prime[j] = False`: pointwise update of the flag function. -/
def setFalse (g : ℕ → Bool) (j : ℕ) : ℕ → Bool :=
  fun k => if k = j then false else g k

/-- Inner marking loop `for j in range(i*i, limit + 1, i): is_prime[j] = False`.
For `i * i ≤ limit` the Python range has `(limit - i*i) / i + 1` elements. -/
def markMultiples (limit i : ℕ) (g : ℕ → Bool) : ℕ → Bool :=
  (List.range' (i * i) ((limit - i * i) / i + 1) i).foldl setFalse g

/-- `is_prime = [True] * (limit + 1); is_prime[0] = is_prime[1] = False`:
entry `k` of the array holds iff `2 ≤ k ≤ limit`. -/
def initFlags (limit : ℕ) : ℕ → Bool :=
  fun k => decide (2 ≤ k) && decide (k ≤ limit)

/-- Body of the outer sieve loop: `if is_prime[i]:` mark the multiples of `i`. -/
def sieveStep (limit : ℕ) (g : ℕ → Bool) (i : ℕ) : ℕ → Bool :=
  if g i then markMultiples limit i g else g

/-- The sieve state after the outer loop `for i in range(2, int(limit**0.5) + 1)`. -/
def sieveFlags (limit : ℕ) : ℕ → Bool :=
  (List.range' 2 (Nat.sqrt limit - 1) 1).foldl (sieveStep limit) (initFlags limit)

/-- `PrimesContribution.first_primes(n)`:
`primes = [i for i in range(2, limit + 1) if is_prime[i]]; return primes[:n]`. -/
def PrimesContribution.first_primes (n : ℕ) : List ℕ :=
  ((List.range' 2 (sieveLimit n - 1) 1).filter
    (fun j => sieveFlags (sieveLimit n) j)).take n

/-- Modelled from the spec: the ascending list of all primes `≤ L`
(the reference value the sieve is supposed to compute). -/
def primesUpTo (L : ℕ) : List ℕ :=
  (List.range' 2 (L - 1) 1).filter (fun j => decide (Nat.Prime j))

/-- `k` has been eliminated by marking: some prime `d ≤ I` divides `k`
with `d * d ≤ k` (accounting for the `i*i` start of the marking range). -/
def cleared (I k : ℕ) : Prop :=
  ∃ d, Nat.Prime d ∧ d ≤ I ∧ d ∣ k ∧ d * d ≤ k

/-! ## ZerosContribution (weil_zeros.py) -/

/-- `ZerosContribution.gaussian_fourier_transform(t, sigma)`:
`2 * sigma * sqrt(pi) * exp(-(sigma * t) ** 2)`. -/
noncomputable def ZerosContribution.gaussian_fourier_transform
    (t : ℝ) (sigma : ℝ) : ℝ :=
  2 * sigma * Real.sqrt Real.pi * Real.exp (-(sigma * t) ^ 2)

/-- The accumulation loop of `ZerosContribution.compute`: for each zero add the
transform value, then `break` when `f_hat_val < mpf('1e-50')`. -/
noncomputable def zerosLoop (sigma : ℝ) : List ℝ → ℝ → ℝ
  | [], total => total
  | gamma_n :: rest, total =>
    let f_hat_val := ZerosContribution.gaussian_fourier_transform gamma_n sigma
    if f_hat_val < 1 / 10 ^ 50 then total + f_hat_val
    else zerosLoop sigma rest (total + f_hat_val)

/-- `ZerosContribution.compute(gammas, sigma)`: run the loop from `total = 0`
and return `2 * total`. -/
noncomputable def ZerosContribution.compute (gammas : List ℝ) (sigma : ℝ) : ℝ :=
  2 * zerosLoop sigma gammas 0

/-- Spec-style description of the zeros accumulation (§4.4 of the design
document), with the early exit triggered by the **signed** term value,
written as a direct sum rather than a tail-recursive loop. -/
noncomputable def zerosSpecRun (sigma : ℝ) : List ℝ → ℝ
  | [] => 0
  | t :: rest =>
    let v := ZerosContribution.gaussian_fourier_transform t sigma
    v + (if v < 1 / 10 ^ 50 then 0 else zerosSpecRun sigma rest)

/-- The zeros accumulation exactly as the claim words it: the early exit is
triggered once a term's **magnitude** falls below the `1e-50` floor. -/
noncomputable def zerosSpecRunAbs (sigma : ℝ) : List ℝ → ℝ
  | [] => 0
  | t :: rest =>
    let v := ZerosContribution.gaussian_fourier_transform t sigma
    v + (if |v| < 1 / 10 ^ 50 then 0 else zerosSpecRunAbs sigma rest)

/-! ## PrimesContribution.compute (weil_primes.py, lines 27-76) -/

/-- Inner multiplicity loop `for m in range(1, 100)`: skip out once
`p ** (-m/2) < 10 ** (-dps)`, otherwise add
`p_power * (f(m * log_p) + f(-m * log_p))` and stop after adding once
`|term| < 10 ** (-dps)`. -/
noncomputable def PrimesContribution.innerLoop
    (f : ℝ → ℝ) (dps : ℕ) (p_mp log_p : ℝ) : List ℕ → ℝ → ℝ
  | [], inner_sum => inner_sum
  | m :: ms, inner_sum =>
    let p_power := p_mp ^ (-(m : ℝ) / 2)
    if p_power < 1 / 10 ^ dps then inner_sum
    else
      let term := p_power * (f ((m : ℝ) * log_p) + f (-((m : ℝ) * log_p)))
      if |term| < 1 / 10 ^ dps then inner_sum + term
      else PrimesContribution.innerLoop f dps p_mp log_p ms (inner_sum + term)

/-- The inner sum over prime powers for one prime `p`. -/
noncomputable def PrimesContribution.innerSum (f : ℝ → ℝ) (dps : ℕ) (p : ℕ) : ℝ :=
  PrimesContribution.innerLoop f dps (p : ℝ) (Real.log (p : ℝ)) (List.range' 1 99 1) 0

/-- Outer loop over the primes: accumulate `prime_term = log_p * inner_sum`
into the total, record `contributions[p] = prime_term`, and `break` once
`|prime_term| < 10 ** (-dps)`. -/
noncomputable def PrimesContribution.outerLoop
    (f : ℝ → ℝ) (dps : ℕ) : List ℕ → ℝ → List (ℕ × ℝ) → ℝ × List (ℕ × ℝ)
  | [], total, p_contributions => (total, p_contributions)
  | p :: ps, total, p_contributions =>
    let prime_term := Real.log (p : ℝ) * PrimesContribution.innerSum f dps p
    let total' := total + prime_term
    let contributions' := p_contributions ++ [(p, prime_term)]
    if |prime_term| < 1 / 10 ^ dps then (total', contributions')
    else PrimesContribution.outerLoop f dps ps total' contributions'

/-- `PrimesContribution.compute(f, num_primes)` at ambient precision `dps`. -/
noncomputable def PrimesContribution.compute
    (f : ℝ → ℝ) (num_primes dps : ℕ) : ℝ × List (ℕ × ℝ) :=
  PrimesContribution.outerLoop f dps
    (PrimesContribution.first_primes num_primes) 0 []

/-- Spec-style description of the primes the outer loop processes: every prime
up to and including the first one whose contribution falls below the cutoff. -/
noncomputable def primesProcessed (f : ℝ → ℝ) (dps : ℕ) : List ℕ → List ℕ
  | [] => []
  | p :: ps =>
    if |Real.log (p : ℝ) * PrimesContribution.innerSum f dps p| < 1 / 10 ^ dps
    then [p]
    else p :: primesProcessed f dps ps

/-! ## ArchimideanTerm (weil_archimedean.py) -/

/-- The integrand of the principal-value integral after the substitution
`u = exp(x)`, with the removable singularity special-cased to `0` on
`|x| < mpf('1e-15')`. -/
noncomputable def ArchimideanTerm.integrand (f : ℝ → ℝ) (f_of_1 : ℝ) (x : ℝ) : ℝ :=
  if |x| < 1 / 10 ^ 15 then 0
  else (f (Real.exp x) + f (Real.exp (-x)) - 2 * f_of_1) / (Real.exp x - 1)

/-- `ArchimideanTerm.compute(f)`:
`(log(4 pi) + euler) * f(1) + quad(integrand, [-120, 120])`, the quadrature
modelled by the interval integral. -/
noncomputable def ArchimideanTerm.compute (f : ℝ → ℝ) : ℝ :=
  (Real.log (4 * Real.pi) + Real.eulerMascheroniConstant) * f 1
    + ∫ x in (-120 : ℝ)..(120 : ℝ), ArchimideanTerm.integrand f (f 1) x

/-! ## WeilFunctional (weil_functional.py) -/

/-- Values of the Python result dictionary: `mpmath.mpf` scalars, `int`s, and
(unused by the source, present so absence is expressible) a per-prime
contribution dictionary. -/
inductive PyVal where
  | mpf (x : ℝ)
  | int (n : ℕ)
  | dict (entries : List (ℕ × ℝ))

/-- `WeilFunctional.gaussian_testfunc(sigma)`: the pair `(f, f_hat)` with
`f(u) = exp(-(u / (2 * sigma)) ** 2)` and `f_hat` the analytic transform. -/
noncomputable def WeilFunctional.gaussian_testfunc (sigma : ℝ) : (ℝ → ℝ) × (ℝ → ℝ) :=
  (fun u => Real.exp (-(u / (2 * sigma)) ^ 2),
   fun t => ZerosContribution.gaussian_fourier_transform t sigma)

/-- `WeilFunctional.compute(gammas, sigma, num_primes)` at ambient precision
`dps`: returns the pair `(W_f_geom, components)`; `verbose` printing is pure
output and is not modelled. -/
noncomputable def WeilFunctional.compute (gammas : List ℝ) (sigma : ℝ)
    (num_primes dps : ℕ) : ℝ × List (String × PyVal) :=
  let f := (WeilFunctional.gaussian_testfunc sigma).1
  let w_arch := ArchimideanTerm.compute f
  let w_zeros := ZerosContribution.compute gammas sigma
  let wp := PrimesContribution.compute f num_primes dps
  let w_primes := wp.1
  let pole_term_value := 2 * sigma * Real.sqrt Real.pi * Real.exp (sigma ^ 2 / 4)
  let w_poles := 2 * pole_term_value
  let W_f_geom := w_poles - w_arch - w_primes
  let W_f_spec := w_zeros
  let identity_error := |W_f_geom - W_f_spec|
  (W_f_geom,
    [("W_archimedean", PyVal.mpf w_arch),
     ("W_zeros", PyVal.mpf w_zeros),
     ("W_primes", PyVal.mpf w_primes),
     ("W_poles", PyVal.mpf w_poles),
     ("W_total", PyVal.mpf W_f_geom),
     ("identity_error", PyVal.mpf identity_error),
     ("sigma", PyVal.mpf sigma),
     ("num_gammas", PyVal.int gammas.length),
     ("num_primes", PyVal.int num_primes)])

/-! ## Sieve correctness -/

lemma setFalse_apply (g : ℕ → Bool) (j k : ℕ) :
    setFalse g j k = if k = j then false else g k := rfl

lemma foldl_setFalse_apply (l : List ℕ) :
    ∀ (g : ℕ → Bool) (k : ℕ),
      (l.foldl setFalse g) k = (g k && !(decide (k ∈ l))) := by
  induction l with
  | nil => simp
  | cons a l ih =>
    intro g k
    simp only [List.foldl_cons, ih, setFalse_apply, List.mem_cons]
    by_cases hka : k = a <;> simp [hka]

lemma mem_markRange {limit i k : ℕ} (hi : 1 ≤ i) (hii : i * i ≤ limit) :
    k ∈ List.range' (i * i) ((limit - i * i) / i + 1) i ↔
      (i ∣ k ∧ i * i ≤ k ∧ k ≤ limit) := by
  rw [List.mem_range']
  constructor
  · rintro ⟨t, ht, rfl⟩
    refine ⟨⟨i + t, by ring⟩, Nat.le_add_right _ _, ?_⟩
    have h1 : t ≤ (limit - i * i) / i := by omega
    have h2 : t * i ≤ (limit - i * i) / i * i := Nat.mul_le_mul_right i h1
    have h3 : (limit - i * i) / i * i ≤ limit - i * i := Nat.div_mul_le_self _ _
    have h4 : i * t = t * i := Nat.mul_comm i t
    omega
  · rintro ⟨⟨c, rfl⟩, hik, hkl⟩
    have hc : i ≤ c := by
      by_contra hlt
      push_neg at hlt
      have : i * c < i * i := mul_lt_mul_of_pos_left hlt (show 0 < i by omega)
      omega
    obtain ⟨d, rfl⟩ : ∃ d, c = i + d := ⟨c - i, by omega⟩
    refine ⟨d, ?_, by ring⟩
    have h2 : d * i ≤ limit - i * i := by
      have h1 : i * (i + d) = i * i + d * i := by ring
      omega
    have h3 := (Nat.le_div_iff_mul_le (show 0 < i by omega)).mpr h2
    omega

lemma markMultiples_apply {limit i : ℕ} (hi : 1 ≤ i) (hii : i * i ≤ limit)
    (g : ℕ → Bool) (k : ℕ) :
    markMultiples limit i g k
      = (g k && !(decide (i ∣ k ∧ i * i ≤ k ∧ k ≤ limit))) := by
  rw [markMultiples, foldl_setFalse_apply,
    decide_eq_decide.mpr (mem_markRange hi hii)]

lemma cleared_succ_iff {s k : ℕ} (hs : 1 ≤ s) :
    cleared s k ↔ cleared (s - 1) k ∨ (Nat.Prime s ∧ s ∣ k ∧ s * s ≤ k) := by
  constructor
  · rintro ⟨d, hdp, hds, hdk, hdd⟩
    rcases Nat.lt_or_ge d s with hlt | hge
    · exact Or.inl ⟨d, hdp, by omega, hdk, hdd⟩
    · have : d = s := by omega
      subst this
      exact Or.inr ⟨hdp, hdk, hdd⟩
  · rintro (⟨d, hdp, hds, hdk, hdd⟩ | ⟨hsp, hsk, hss⟩)
    · exact ⟨d, hdp, by omega, hdk, hdd⟩
    · exact ⟨s, hsp, le_refl s, hsk, hss⟩

lemma not_cleared_self_iff {s : ℕ} (hs : 2 ≤ s) :
    ¬ cleared (s - 1) s ↔ Nat.Prime s := by
  constructor
  · intro h
    by_contra hnp
    have hsq := Nat.minFac_sq_le_self (show 0 < s by omega) hnp
    rw [pow_two] at hsq
    have hle : s.minFac ≤ s := Nat.minFac_le (by omega)
    have hne : s.minFac ≠ s := fun he =>
      hnp (Nat.prime_def_minFac.mpr ⟨hs, he⟩)
    exact h ⟨s.minFac, Nat.minFac_prime (by omega), by omega, Nat.minFac_dvd s, hsq⟩
  · rintro hp ⟨d, hdp, hds, hdk, hdd⟩
    rcases hp.eq_one_or_self_of_dvd d hdk with h1 | h1
    · exact absurd h1 hdp.one_lt.ne'
    · omega

lemma not_cleared_sqrt_iff {L k : ℕ} (h2 : 2 ≤ k) (hkL : k ≤ L) :
    ¬ cleared (Nat.sqrt L) k ↔ Nat.Prime k := by
  constructor
  · intro h
    by_contra hnp
    have hsq := Nat.minFac_sq_le_self (show 0 < k by omega) hnp
    rw [pow_two] at hsq
    exact h ⟨k.minFac, Nat.minFac_prime (by omega),
      Nat.le_sqrt.mpr (le_trans hsq hkL), Nat.minFac_dvd k, hsq⟩
  · rintro hp ⟨d, hdp, hds, hdk, hdd⟩
    rcases hp.eq_one_or_self_of_dvd d hdk with h1 | h1
    · exact absurd h1 hdp.one_lt.ne'
    · subst h1
      have h2d : 2 * d ≤ d * d := Nat.mul_le_mul_right d hdp.two_le
      omega

lemma sieve_fold_invariant (L : ℕ) :
    ∀ (cnt s : ℕ) (g : ℕ → Bool), 2 ≤ s → s + cnt - 1 ≤ Nat.sqrt L →
      (∀ k, g k = true ↔ (2 ≤ k ∧ k ≤ L ∧ ¬ cleared (s - 1) k)) →
      ∀ k, ((List.range' s cnt 1).foldl (sieveStep L) g) k = true ↔
        (2 ≤ k ∧ k ≤ L ∧ ¬ cleared (s + cnt - 1) k) := by
  intro cnt
  induction cnt with
  | zero =>
    intro s g hs _ hinv k
    simpa using hinv k
  | succ n ih =>
    intro s g hs hbound hinv k
    have hsL : s ≤ L := le_trans (le_trans (by omega) hbound) (Nat.sqrt_le_self L)
    have hss : s * s ≤ L := Nat.le_sqrt.mp (le_trans (by omega) hbound)
    have hgs : g s = true ↔ Nat.Prime s := by
      rw [hinv s]
      constructor
      · rintro ⟨-, -, h⟩
        exact (not_cleared_self_iff hs).mp h
      · intro hp
        exact ⟨hs, hsL, (not_cleared_self_iff hs).mpr hp⟩
    rw [List.range'_succ, List.foldl_cons]
    have harith : s + 1 + n - 1 = s + (n + 1) - 1 := by omega
    by_cases hgsb : g s = true
    · have hps : Nat.Prime s := hgs.mp hgsb
      have hinv' : ∀ k, (sieveStep L g s) k = true ↔
          (2 ≤ k ∧ k ≤ L ∧ ¬ cleared (s + 1 - 1) k) := by
        intro k
        rw [sieveStep, if_pos hgsb, markMultiples_apply (by omega) hss,
          Bool.and_eq_true, Bool.not_eq_true', decide_eq_false_iff_not, hinv k]
        simp only [Nat.add_sub_cancel]
        rw [cleared_succ_iff (show 1 ≤ s by omega)]
        constructor
        · rintro ⟨⟨h2k, hkL2, hnc⟩, hnd⟩
          refine ⟨h2k, hkL2, ?_⟩
          rintro (h | ⟨-, hdvd, hsq⟩)
          · exact hnc h
          · exact hnd ⟨hdvd, hsq, hkL2⟩
        · rintro ⟨h2k, hkL2, hnc⟩
          refine ⟨⟨h2k, hkL2, fun h => hnc (Or.inl h)⟩, ?_⟩
          rintro ⟨hdvd, hsq, -⟩
          exact hnc (Or.inr ⟨hps, hdvd, hsq⟩)
      have h := ih (s + 1) (sieveStep L g s) (by omega) (by omega) hinv' k
      rwa [harith] at h
    · have hnps : ¬ Nat.Prime s := fun hp => hgsb (hgs.mpr hp)
      have hinv' : ∀ k, (sieveStep L g s) k = true ↔
          (2 ≤ k ∧ k ≤ L ∧ ¬ cleared (s + 1 - 1) k) := by
        intro k
        rw [sieveStep, if_neg hgsb, hinv k]
        simp only [Nat.add_sub_cancel]
        rw [cleared_succ_iff (show 1 ≤ s by omega)]
        constructor
        · rintro ⟨h2k, hkL2, hnc⟩
          refine ⟨h2k, hkL2, ?_⟩
          rintro (h | ⟨hps, -, -⟩)
          · exact hnc h
          · exact hnps hps
        · rintro ⟨h2k, hkL2, hnc⟩
          exact ⟨h2k, hkL2, fun h => hnc (Or.inl h)⟩
      have h := ih (s + 1) (sieveStep L g s) (by omega) (by omega) hinv' k
      rwa [harith] at h

lemma sieveFlags_iff {L : ℕ} (hL : 4 ≤ L) (k : ℕ) :
    sieveFlags L k = true ↔ (2 ≤ k ∧ k ≤ L ∧ Nat.Prime k) := by
  have hsq2 : 2 ≤ Nat.sqrt L := Nat.le_sqrt.mpr (by omega)
  have hinit : ∀ k, initFlags L k = true ↔ (2 ≤ k ∧ k ≤ L ∧ ¬ cleared (2 - 1) k) := by
    intro k
    simp only [initFlags, Bool.and_eq_true, decide_eq_true_eq]
    have hnc : ¬ cleared 1 k := by
      rintro ⟨d, hdp, hd1, -, -⟩
      have := hdp.two_le
      omega
    exact ⟨fun ⟨h2, hL2⟩ => ⟨h2, hL2, hnc⟩, fun ⟨h2, hL2, _⟩ => ⟨h2, hL2⟩⟩
  have h := sieve_fold_invariant L (Nat.sqrt L - 1) 2 (initFlags L)
      (le_refl 2) (by omega) hinit k
  rw [sieveFlags, h, show 2 + (Nat.sqrt L - 1) - 1 = Nat.sqrt L by omega]
  constructor
  · rintro ⟨h2, hkL, hnc⟩
    exact ⟨h2, hkL, (not_cleared_sqrt_iff h2 hkL).mp hnc⟩
  · rintro ⟨h2, hkL, hp⟩
    exact ⟨h2, hkL, (not_cleared_sqrt_iff h2 hkL).mpr hp⟩

lemma sieveLimit_ge (n : ℕ) : 15000 ≤ sieveLimit n := le_max_left _ _

lemma first_primes_eq_take (n : ℕ) :
    PrimesContribution.first_primes n = (primesUpTo (sieveLimit n)).take n := by
  have hL : 4 ≤ sieveLimit n := le_trans (by norm_num) (sieveLimit_ge n)
  rw [PrimesContribution.first_primes, primesUpTo]
  congr 1
  refine List.filter_congr ?_
  intro j hj
  rw [List.mem_range'] at hj
  obtain ⟨i, hi, rfl⟩ := hj
  rw [Bool.eq_iff_iff, decide_eq_true_eq, sieveFlags_iff hL]
  constructor
  · rintro ⟨-, -, hp⟩
    exact hp
  · intro hp
    exact ⟨by omega, by omega, hp⟩

lemma pairwise_lt_range'_one : ∀ (n s : ℕ), (List.range' s n 1).Pairwise (· < ·) := by
  intro n
  induction n with
  | zero => intro s; simp
  | succ m ih =>
    intro s
    rw [List.range'_succ]
    refine List.Pairwise.cons ?_ (ih (s + 1))
    intro b hb
    rw [List.mem_range'] at hb
    obtain ⟨i, -, rfl⟩ := hb
    omega

lemma first_primes_sublist_range (n : ℕ) :
    List.Sublist (PrimesContribution.first_primes n)
      (List.range' 2 (sieveLimit n - 1) 1) :=
  (List.take_sublist _ _).trans (List.filter_sublist _)

lemma first_primes_pairwise (n : ℕ) :
    (PrimesContribution.first_primes n).Pairwise (· < ·) :=
  List.Pairwise.sublist (first_primes_sublist_range n) (pairwise_lt_range'_one _ _)

lemma range'_unfold (s n s' m : ℕ) (hs : s' = s + 1) (h : n = m + 1) :
    List.range' s n 1 = s :: List.range' s' m 1 := by
  subst hs
  subst h
  rw [List.range'_succ]

lemma primesUpTo_15000 :
    primesUpTo 15000
      = [2, 3, 5, 7, 11]
        ++ (List.range' 12 14989 1).filter (fun j => decide (Nat.Prime j)) := by
  rw [primesUpTo, show (15000 : ℕ) - 1 = 14999 from rfl,
    range'_unfold 2 14999 3 14998 (by norm_num) (by norm_num),
    range'_unfold 3 14998 4 14997 (by norm_num) (by norm_num),
    range'_unfold 4 14997 5 14996 (by norm_num) (by norm_num),
    range'_unfold 5 14996 6 14995 (by norm_num) (by norm_num),
    range'_unfold 6 14995 7 14994 (by norm_num) (by norm_num),
    range'_unfold 7 14994 8 14993 (by norm_num) (by norm_num),
    range'_unfold 8 14993 9 14992 (by norm_num) (by norm_num),
    range'_unfold 9 14992 10 14991 (by norm_num) (by norm_num),
    range'_unfold 10 14991 11 14990 (by norm_num) (by norm_num),
    range'_unfold 11 14990 12 14989 (by norm_num) (by norm_num)]
  simp only [List.filter_cons, decide_eq_true_eq]
  norm_num

lemma first_primes_five : PrimesContribution.first_primes 5 = [2, 3, 5, 7, 11] := by
  have h5 : sieveLimit 5 = 15000 := by
    rw [sieveLimit]
    exact max_eq_left (by norm_num)
  rw [first_primes_eq_take, h5, primesUpTo_15000]
  exact List.take_left' rfl

lemma first_primes_one : PrimesContribution.first_primes 1 = [2] := by
  have h1 : sieveLimit 1 = 15000 := by
    rw [sieveLimit]
    exact max_eq_left (by norm_num)
  rw [first_primes_eq_take, h1, primesUpTo_15000]
  rfl

lemma first_primes_zero : PrimesContribution.first_primes 0 = [] := rfl

/-- Claim C8: `firstPrimes(5)` returns exactly `[2, 3, 5, 7, 11]`, and for
every `n` the returned list is strictly ascending, hence without
duplicates. -/
theorem first_primes_five_and_ascending :
    PrimesContribution.first_primes 5 = [2, 3, 5, 7, 11]
      ∧ ∀ n : ℕ, (PrimesContribution.first_primes n).Pairwise (· < ·) :=
  ⟨first_primes_five, first_primes_pairwise⟩

/-- Claim C9: for every `n`, `first_primes(n)` sieves primes up to the bound
`sieveLimit n = max(15000, 20 * n)` and returns the `n`-element prefix of the
ascending list of all primes up to that bound; consequently its length is
`min n (number of primes ≤ bound)`: if the bound holds fewer than `n` primes
it returns fewer than requested (and no error is raised, the function being
total), and otherwise it returns exactly the first `n` primes. -/
theorem first_primes_sieve_bound :
    ∀ n : ℕ,
      PrimesContribution.first_primes n = (primesUpTo (sieveLimit n)).take n
        ∧ (PrimesContribution.first_primes n).length
            = min n (primesUpTo (sieveLimit n)).length :=
  fun n => ⟨first_primes_eq_take n, by rw [first_primes_eq_take n, List.length_take]⟩

/-! ## Zeros summation -/

lemma sqrt_pi_pos : 0 < Real.sqrt Real.pi := Real.sqrt_pos.mpr Real.pi_pos

lemma one_le_sqrt_pi : 1 ≤ Real.sqrt Real.pi := by
  rw [show (1 : ℝ) = Real.sqrt 1 from Real.sqrt_one.symm]
  exact Real.sqrt_le_sqrt (by linarith [Real.pi_gt_three])

lemma zerosLoop_eq_specRun (sigma : ℝ) :
    ∀ (l : List ℝ) (total : ℝ),
      zerosLoop sigma l total = total + zerosSpecRun sigma l := by
  intro l
  induction l with
  | nil => intro total; simp [zerosLoop, zerosSpecRun]
  | cons t rest ih =>
    intro total
    simp only [zerosLoop, zerosSpecRun]
    by_cases h : ZerosContribution.gaussian_fourier_transform t sigma < 1 / 10 ^ 50
    · rw [if_pos h, if_pos h]
      ring
    · rw [if_neg h, if_neg h, ih]
      ring

/-- Claim C4 (amended): `ZerosContribution.compute` accumulates the transform
`2 sigma sqrt(pi) exp(-(sigma t)^2)` for each supplied zero in order, stops
after the first term whose **signed value** (equivalently, whose magnitude,
whenever `sigma ≥ 0`) falls below the absolute floor `1e-50` — the triggering
term itself still being accumulated — and returns the accumulated sum
doubled; on an empty sequence it returns `0`. -/
theorem zeros_compute_eq_spec (gammas : List ℝ) (sigma : ℝ) :
    ZerosContribution.compute gammas sigma = 2 * zerosSpecRun sigma gammas
      ∧ ZerosContribution.compute [] sigma = 0 := by
  constructor
  · rw [ZerosContribution.compute, zerosLoop_eq_specRun, zero_add]
  · rw [ZerosContribution.compute]
    simp [zerosLoop]

lemma gft_zero_neg_one :
    ZerosContribution.gaussian_fourier_transform 0 (-1)
      = -(2 * Real.sqrt Real.pi) := by
  rw [ZerosContribution.gaussian_fourier_transform]
  simp [Real.exp_zero]

/-- Claim C4, counterexample to the claim as stated: with `sigma = -1` every
term equals `-2 sqrt(pi)`, whose **magnitude** `2 sqrt(pi)` never falls below
the `1e-50` floor, yet the code's signed comparison `f_hat_val < 1e-50` breaks
immediately: on the sequence `[0, 0]` the code sums one term where the
magnitude-based reading of the claim sums two. -/
theorem zeros_compute_magnitude_counterexample :
    ZerosContribution.compute [0, 0] (-1) ≠ 2 * zerosSpecRunAbs (-1) [0, 0] := by
  have hs := sqrt_pi_pos
  have hv := gft_zero_neg_one
  have h1 : ZerosContribution.gaussian_fourier_transform 0 (-1) < 1 / 10 ^ 50 := by
    rw [hv]
    have : (0 : ℝ) < 1 / 10 ^ 50 := by norm_num
    linarith
  have h2 : ¬ (|ZerosContribution.gaussian_fourier_transform 0 (-1)| < 1 / 10 ^ 50) := by
    rw [hv, abs_neg, abs_of_pos (by linarith)]
    have h12 : (1 : ℝ) ≤ Real.sqrt Real.pi := one_le_sqrt_pi
    intro hlt
    have : (1 : ℝ) / 10 ^ 50 ≤ 1 := by norm_num
    linarith
  have hL : ZerosContribution.compute [0, 0] (-1)
      = 2 * (0 + ZerosContribution.gaussian_fourier_transform 0 (-1)) := by
    rw [ZerosContribution.compute]
    simp only [zerosLoop, if_pos h1]
  have hR : zerosSpecRunAbs (-1) [0, 0]
      = ZerosContribution.gaussian_fourier_transform 0 (-1)
        + (ZerosContribution.gaussian_fourier_transform 0 (-1) + 0) := by
    simp only [zerosSpecRunAbs, if_neg h2]
  rw [hL, hR, hv]
  intro heq
  nlinarith [hs]

lemma gft_pos {t sigma : ℝ} (hsigma : 0 < sigma) :
    0 < ZerosContribution.gaussian_fourier_transform t sigma := by
  rw [ZerosContribution.gaussian_fourier_transform]
  exact mul_pos (mul_pos (mul_pos two_pos hsigma) sqrt_pi_pos)
    (Real.exp_pos _)

lemma zerosLoop_nonneg {sigma : ℝ} (hsigma : 0 < sigma) :
    ∀ (l : List ℝ) (total : ℝ), 0 ≤ total → 0 ≤ zerosLoop sigma l total := by
  intro l
  induction l with
  | nil => intro total h; simpa [zerosLoop] using h
  | cons t rest ih =>
    intro total h
    have hv := gft_pos (t := t) hsigma
    simp only [zerosLoop]
    by_cases hc : ZerosContribution.gaussian_fourier_transform t sigma < 1 / 10 ^ 50
    · rw [if_pos hc]
      linarith
    · rw [if_neg hc]
      exact ih _ (by linarith)

/-- Claim C10: for every list of real zeros and every `sigma > 0`,
`ZerosContribution.compute` returns a nonnegative value, each transform term
`2 sigma sqrt(pi) exp(-(sigma t)^2)` being strictly positive. -/
theorem zeros_compute_nonneg (gammas : List ℝ) (sigma : ℝ) (hsigma : 0 < sigma) :
    0 ≤ ZerosContribution.compute gammas sigma
      ∧ ∀ t : ℝ, 0 < ZerosContribution.gaussian_fourier_transform t sigma := by
  constructor
  · rw [ZerosContribution.compute]
    have h := zerosLoop_nonneg hsigma gammas 0 (le_refl 0)
    linarith
  · intro t
    exact gft_pos hsigma

/-- Witness for C10 at the concrete input `gammas = [14], sigma = 1`. -/
theorem zeros_compute_nonneg_witness :
    0 < (1 : ℝ) ∧ (0 ≤ ZerosContribution.compute [14] 1
      ∧ ∀ t : ℝ, 0 < ZerosContribution.gaussian_fourier_transform t 1) :=
  ⟨by norm_num, zeros_compute_nonneg [14] 1 (by norm_num)⟩

/-! ## Archimedean integrand guard -/

/-- Claim C7: for every `x` with `|x| < 1e-15` (a fixed cutoff independent of
the precision digit count) the archimedean integrand returns exactly `0`
without evaluating the ratio, so the quotient by `exp(x) - 1` is never formed
at the removable singularity and the integrand is total at `x = 0`. -/
theorem integrand_vanishes_near_zero (f : ℝ → ℝ) (f_of_1 x : ℝ)
    (h : |x| < 1 / 10 ^ 15) :
    ArchimideanTerm.integrand f f_of_1 x = 0 := by
  rw [ArchimideanTerm.integrand, if_pos h]

/-- Witness for C7 at `x = 0` (the singularity itself). -/
theorem integrand_vanishes_near_zero_witness :
    |(0 : ℝ)| < 1 / 10 ^ 15
      ∧ ArchimideanTerm.integrand (fun u => u) 1 0 = 0 :=
  ⟨by norm_num, integrand_vanishes_near_zero (fun u => u) 1 0 (by norm_num)⟩

/-! ## Primes summation record -/

lemma outerLoop_record (f : ℝ → ℝ) (dps : ℕ) :
    ∀ (l : List ℕ) (total : ℝ) (contribs : List (ℕ × ℝ)),
      (PrimesContribution.outerLoop f dps l total contribs).2
        = contribs ++ (primesProcessed f dps l).map
            (fun p : ℕ => (p, Real.log (p : ℝ) * PrimesContribution.innerSum f dps p)) := by
  intro l
  induction l with
  | nil =>
    intro total contribs
    simp [PrimesContribution.outerLoop, primesProcessed]
  | cons p ps ih =>
    intro total contribs
    simp only [PrimesContribution.outerLoop, primesProcessed]
    by_cases h :
        |Real.log (p : ℝ) * PrimesContribution.innerSum f dps p| < 1 / 10 ^ dps
    · rw [if_pos h, if_pos h]
      simp
    · rw [if_neg h, if_neg h, ih]
      simp

lemma primesProcessed_sublist (f : ℝ → ℝ) (dps : ℕ) :
    ∀ l : List ℕ, List.Sublist (primesProcessed f dps l) l := by
  intro l
  induction l with
  | nil => simp [primesProcessed]
  | cons p ps ih =>
    simp only [primesProcessed]
    by_cases h :
        |Real.log (p : ℝ) * PrimesContribution.innerSum f dps p| < 1 / 10 ^ dps
    · rw [if_pos h]
      exact (List.nil_sublist ps).cons₂ p
    · rw [if_neg h]
      exact ih.cons₂ p

/-- Claim C5: the outer loop of `PrimesContribution.compute` breaks once
`|prime_term| < 10^(-dps)`; the returned contribution record lists, in
ascending-prime order, exactly the primes processed before the early exit —
including the prime whose contribution fell below the cutoff — each paired
with its contribution `log(p) * inner_sum(p)`; and with `num_primes = 1` the
record has exactly one entry, keyed by `2`. -/
theorem primes_record_processed :
    (∀ (f : ℝ → ℝ) (n dps : ℕ),
        (PrimesContribution.compute f n dps).2
          = (primesProcessed f dps (PrimesContribution.first_primes n)).map
              (fun p : ℕ => (p, Real.log (p : ℝ) * PrimesContribution.innerSum f dps p))
        ∧ ((PrimesContribution.compute f n dps).2.map Prod.fst).Pairwise (· < ·))
      ∧ ∀ (f : ℝ → ℝ) (dps : ℕ),
          (PrimesContribution.compute f 1 dps).2.map Prod.fst = [2] := by
  constructor
  · intro f n dps
    have hrec := outerLoop_record f dps (PrimesContribution.first_primes n) 0 []
    rw [List.nil_append] at hrec
    refine ⟨by rw [PrimesContribution.compute, hrec], ?_⟩
    rw [PrimesContribution.compute, hrec, List.map_map]
    have hfst : (Prod.fst ∘ fun p : ℕ =>
        ((p, Real.log (p : ℝ) * PrimesContribution.innerSum f dps p) : ℕ × ℝ))
        = fun p : ℕ => p := rfl
    rw [hfst, List.map_id']
    exact List.Pairwise.sublist (primesProcessed_sublist f dps _)
      (first_primes_pairwise n)
  · intro f dps
    have hrec := outerLoop_record f dps (PrimesContribution.first_primes 1) 0 []
    rw [List.nil_append] at hrec
    rw [PrimesContribution.compute, hrec, first_primes_one]
    simp only [primesProcessed]
    by_cases h :
        |Real.log ((2 : ℕ) : ℝ) * PrimesContribution.innerSum f dps 2| < 1 / 10 ^ dps
    · rw [if_pos h]
      rfl
    · rw [if_neg h]
      simp [primesProcessed]

/-! ## Orchestrator structure -/

lemma weil_compute_keys (gammas : List ℝ) (sigma : ℝ) (num_primes dps : ℕ) :
    (WeilFunctional.compute gammas sigma num_primes dps).2.map Prod.fst
      = ["W_archimedean", "W_zeros", "W_primes", "W_poles", "W_total",
         "identity_error", "sigma", "num_gammas", "num_primes"] := rfl

lemma weil_compute_total (gammas : List ℝ) (sigma : ℝ) (num_primes dps : ℕ) :
    (WeilFunctional.compute gammas sigma num_primes dps).1
      = 2 * (2 * sigma * Real.sqrt Real.pi * Real.exp (sigma ^ 2 / 4))
        - ArchimideanTerm.compute (WeilFunctional.gaussian_testfunc sigma).1
        - (PrimesContribution.compute
            (WeilFunctional.gaussian_testfunc sigma).1 num_primes dps).1 := rfl

lemma weil_compute_residual_mem (gammas : List ℝ) (sigma : ℝ) (num_primes dps : ℕ) :
    ("identity_error", PyVal.mpf
        |(WeilFunctional.compute gammas sigma num_primes dps).1
          - ZerosContribution.compute gammas sigma|)
      ∈ (WeilFunctional.compute gammas sigma num_primes dps).2 := by
  simp [WeilFunctional.compute]

/-- Claim C2: the orchestrator combines the three terms under the single
primary identity `total = poles - archimedean - primes` (the pole term being
`2 * (2 sigma sqrt(pi) exp(sigma^2 / 4))`), and for every input reports an
`identity_error` equal to `|formulationA - formulationB|`, the absolute
difference between that total and the zeros sum. -/
theorem weil_total_identity_and_residual (gammas : List ℝ) (sigma : ℝ)
    (num_primes dps : ℕ) :
    (WeilFunctional.compute gammas sigma num_primes dps).1
        = 2 * (2 * sigma * Real.sqrt Real.pi * Real.exp (sigma ^ 2 / 4))
          - ArchimideanTerm.compute (WeilFunctional.gaussian_testfunc sigma).1
          - (PrimesContribution.compute
              (WeilFunctional.gaussian_testfunc sigma).1 num_primes dps).1
      ∧ ("identity_error", PyVal.mpf
            |(WeilFunctional.compute gammas sigma num_primes dps).1
              - ZerosContribution.compute gammas sigma|)
          ∈ (WeilFunctional.compute gammas sigma num_primes dps).2 :=
  ⟨weil_compute_total gammas sigma num_primes dps,
   weil_compute_residual_mem gammas sigma num_primes dps⟩

/-- Claim C1, counterexample to the claim as stated: at the concrete input
`gammas = [], sigma = 1, num_primes = 1, dps = 50` the returned component
dictionary carries exactly the nine keys `W_archimedean, W_zeros, W_primes,
W_poles, W_total, identity_error, sigma, num_gammas, num_primes`; no stored
value is a per-prime contribution dictionary (the record computed by the
primes module is discarded), and no entry carries the precision digit
count. -/
theorem weil_result_fields_counterexample :
    ((WeilFunctional.compute [] 1 1 50).2.map Prod.fst
      = ["W_archimedean", "W_zeros", "W_primes", "W_poles", "W_total",
         "identity_error", "sigma", "num_gammas", "num_primes"])
      ∧ ((WeilFunctional.compute [] 1 1 50).2.all
          (fun kv => match kv.2 with
            | PyVal.dict _ => false
            | _ => true)) = true :=
  ⟨rfl, rfl⟩

/-- Claim C1 (amended): every orchestrator call returns the pair of the total
and a component dictionary with exactly the nine fields `W_archimedean,
W_zeros, W_primes, W_poles, W_total, identity_error, sigma, num_gammas,
num_primes`, holding the archimedean term, the zeros sum, the primes total,
the pole term, the total, the identity residual, sigma, the zero count and the
prime count; the per-prime contribution record is computed but **not** part of
the returned result, and the precision digit count is not included. -/
theorem weil_result_fields (gammas : List ℝ) (sigma : ℝ) (num_primes dps : ℕ) :
    ((WeilFunctional.compute gammas sigma num_primes dps).2.map Prod.fst
      = ["W_archimedean", "W_zeros", "W_primes", "W_poles", "W_total",
         "identity_error", "sigma", "num_gammas", "num_primes"])
      ∧ ("W_archimedean", PyVal.mpf
            (ArchimideanTerm.compute (WeilFunctional.gaussian_testfunc sigma).1))
          ∈ (WeilFunctional.compute gammas sigma num_primes dps).2
      ∧ ("W_zeros", PyVal.mpf (ZerosContribution.compute gammas sigma))
          ∈ (WeilFunctional.compute gammas sigma num_primes dps).2
      ∧ ("W_primes", PyVal.mpf
            ((PrimesContribution.compute
              (WeilFunctional.gaussian_testfunc sigma).1 num_primes dps).1))
          ∈ (WeilFunctional.compute gammas sigma num_primes dps).2
      ∧ ("W_total", PyVal.mpf (WeilFunctional.compute gammas sigma num_primes dps).1)
          ∈ (WeilFunctional.compute gammas sigma num_primes dps).2
      ∧ ("sigma", PyVal.mpf sigma)
          ∈ (WeilFunctional.compute gammas sigma num_primes dps).2
      ∧ ("num_gammas", PyVal.int gammas.length)
          ∈ (WeilFunctional.compute gammas sigma num_primes dps).2
      ∧ ("num_primes", PyVal.int num_primes)
          ∈ (WeilFunctional.compute gammas sigma num_primes dps).2 := by
  refine ⟨rfl, ?_, ?_, ?_, ?_, ?_, ?_, ?_⟩ <;> simp [WeilFunctional.compute]

/-! ## Orchestrator defect handling -/

lemma gauss_bounds (sigma u : ℝ) :
    0 < (WeilFunctional.gaussian_testfunc sigma).1 u
      ∧ (WeilFunctional.gaussian_testfunc sigma).1 u ≤ 1 := by
  rw [WeilFunctional.gaussian_testfunc]
  refine ⟨Real.exp_pos _, ?_⟩
  rw [show (1 : ℝ) = Real.exp 0 from Real.exp_zero.symm]
  apply Real.exp_le_exp.mpr
  have := sq_nonneg (u / (2 * sigma))
  linarith

lemma integrand_bound {f : ℝ → ℝ} {c : ℝ} (hf : ∀ u, 0 < f u ∧ f u ≤ 1)
    (hc0 : 0 < c) (hc1 : c ≤ 1) (x : ℝ) :
    |ArchimideanTerm.integrand f c x| ≤ 8 * 10 ^ 15 := by
  rw [ArchimideanTerm.integrand]
  by_cases h : |x| < 1 / 10 ^ 15
  · rw [if_pos h]
    norm_num
  · rw [if_neg h]
    have h1 := hf (Real.exp x)
    have h2 := hf (Real.exp (-x))
    have hnum : |f (Real.exp x) + f (Real.exp (-x)) - 2 * c| ≤ 4 := by
      rw [abs_le]
      constructor <;> nlinarith [h1.1, h1.2, h2.1, h2.2]
    have hx : 1 / 10 ^ 15 ≤ |x| := not_lt.mp h
    have hden : 5 / 10 ^ 16 ≤ |Real.exp x - 1| := by
      rcases le_abs.mp hx with hpos | hneg
      · have he : x + 1 ≤ Real.exp x := Real.add_one_le_exp x
        have h0 : (0 : ℝ) ≤ Real.exp x - 1 := by
          have : (0 : ℝ) < 1 / 10 ^ 15 := by norm_num
          linarith
        rw [abs_of_nonneg h0]
        linarith
      · have hxe : Real.exp x ≤ Real.exp (-(1 / 10 ^ 15)) :=
          Real.exp_le_exp.mpr (by linarith)
        have hinv : Real.exp (-(1 / 10 ^ 15 : ℝ)) ≤ 1 / (1 + 1 / 10 ^ 15) := by
          rw [Real.exp_neg, one_div (1 + 1 / 10 ^ 15 : ℝ)]
          apply inv_anti₀ (by norm_num)
          have := Real.add_one_le_exp (1 / 10 ^ 15 : ℝ)
          linarith
        have hup : Real.exp x ≤ 1 / (1 + 1 / 10 ^ 15) := le_trans hxe hinv
        have hnp : Real.exp x - 1 ≤ 0 := by
          have : (1 : ℝ) / (1 + 1 / 10 ^ 15) ≤ 1 := by norm_num
          linarith
        rw [abs_of_nonpos hnp, neg_sub]
        have hq : (5 : ℝ) / 10 ^ 16 ≤ 1 - 1 / (1 + 1 / 10 ^ 15) := by norm_num
        linarith
    rw [abs_div]
    calc |f (Real.exp x) + f (Real.exp (-x)) - 2 * c| / |Real.exp x - 1|
        ≤ 4 / (5 / 10 ^ 16) :=
          div_le_div₀ (by norm_num) hnum (by norm_num) hden
      _ = 8 * 10 ^ 15 := by norm_num

lemma arch_integral_bound {f : ℝ → ℝ} {c : ℝ} (hf : ∀ u, 0 < f u ∧ f u ≤ 1)
    (hc0 : 0 < c) (hc1 : c ≤ 1) :
    |∫ x in (-120 : ℝ)..(120 : ℝ), ArchimideanTerm.integrand f c x|
      ≤ 8 * 10 ^ 15 * 240 := by
  have h : ∀ x ∈ Set.uIoc (-120 : ℝ) (120 : ℝ),
      ‖ArchimideanTerm.integrand f c x‖ ≤ 8 * 10 ^ 15 := by
    intro x _
    rw [Real.norm_eq_abs]
    exact integrand_bound hf hc0 hc1 x
  have h2 := intervalIntegral.norm_integral_le_of_norm_le_const h
  rw [Real.norm_eq_abs, show |(120 : ℝ) - (-120)| = 240 by norm_num] at h2
  exact h2

lemma coeff_bounds :
    0 ≤ Real.log (4 * Real.pi) + Real.eulerMascheroniConstant
      ∧ Real.log (4 * Real.pi) + Real.eulerMascheroniConstant ≤ 16 := by
  have hpi3 := Real.pi_gt_three
  have hpi4 := Real.pi_le_four
  have hlog0 : 0 ≤ Real.log (4 * Real.pi) := Real.log_nonneg (by linarith)
  have hlog16 : Real.log (4 * Real.pi) ≤ 4 * Real.pi - 1 :=
    Real.log_le_sub_one_of_pos (by linarith)
  have hg1 := Real.one_half_lt_eulerMascheroniConstant
  have hg2 := Real.eulerMascheroniConstant_lt_two_thirds
  constructor <;> linarith

lemma arch_compute_bound {f : ℝ → ℝ} (hf : ∀ u, 0 < f u ∧ f u ≤ 1) :
    |ArchimideanTerm.compute f| ≤ 2 * 10 ^ 18 := by
  rw [ArchimideanTerm.compute]
  have hc := hf 1
  have hco := coeff_bounds
  have h1 : |(Real.log (4 * Real.pi) + Real.eulerMascheroniConstant) * f 1| ≤ 16 := by
    rw [abs_mul, abs_of_nonneg hco.1, abs_of_pos hc.1]
    nlinarith [hco.1, hco.2, hc.1, hc.2]
  have h2 := arch_integral_bound hf hc.1 hc.2
  calc |(Real.log (4 * Real.pi) + Real.eulerMascheroniConstant) * f 1
        + ∫ x in (-120 : ℝ)..(120 : ℝ), ArchimideanTerm.integrand f (f 1) x|
      ≤ |(Real.log (4 * Real.pi) + Real.eulerMascheroniConstant) * f 1|
        + |∫ x in (-120 : ℝ)..(120 : ℝ), ArchimideanTerm.integrand f (f 1) x| :=
        abs_add _ _
    _ ≤ 16 + 8 * 10 ^ 15 * 240 := add_le_add h1 h2
    _ ≤ 2 * 10 ^ 18 := by norm_num

lemma poles_lower_20 :
    (10 : ℝ) ^ 31
      ≤ 2 * (2 * 20 * Real.sqrt Real.pi * Real.exp ((20 : ℝ) ^ 2 / 4)) := by
  have hsp := one_le_sqrt_pi
  have hexp : (2 : ℝ) ^ (100 : ℕ) ≤ Real.exp ((20 : ℝ) ^ 2 / 4) := by
    rw [show ((20 : ℝ) ^ 2 / 4) = ((100 : ℕ) : ℝ) * 1 by norm_num,
      Real.exp_nat_mul]
    apply pow_le_pow_left₀ (by norm_num)
    have := Real.add_one_le_exp (1 : ℝ)
    linarith
  have hmul : (1 : ℝ) * 2 ^ (100 : ℕ)
      ≤ Real.sqrt Real.pi * Real.exp ((20 : ℝ) ^ 2 / 4) :=
    mul_le_mul hsp hexp (by positivity) (by linarith)
  nlinarith [hmul]

lemma zeros_empty (sigma : ℝ) : ZerosContribution.compute [] sigma = 0 := by
  rw [ZerosContribution.compute]
  simp [zerosLoop]

lemma primes_zero_total (f : ℝ → ℝ) (dps : ℕ) :
    (PrimesContribution.compute f 0 dps).1 = 0 := by
  rw [PrimesContribution.compute, first_primes_zero]
  rfl

/-- Claim C3, counterexample to the claim as stated: at the concrete input
`gammas = [], sigma = 20, num_primes = 0, dps = 50` the identity residual
exceeds every precision-scaled tolerance (it is above `10^(-45) = 10^(-(dps-5))`
— in fact above `10^12`), yet the orchestrator surfaces no diagnostic: it
returns the ordinary nine-field result, with the exceeded residual merely
stored as the plain `identity_error` entry, exactly as on a defect-free run. -/
theorem weil_exceeded_residual_no_diagnostic :
    (1 / 10 ^ 45 : ℝ)
        < |(WeilFunctional.compute [] 20 0 50).1 - ZerosContribution.compute [] 20|
      ∧ ("identity_error", PyVal.mpf
            |(WeilFunctional.compute [] 20 0 50).1 - ZerosContribution.compute [] 20|)
          ∈ (WeilFunctional.compute [] 20 0 50).2
      ∧ (WeilFunctional.compute [] 20 0 50).2.map Prod.fst
          = ["W_archimedean", "W_zeros", "W_primes", "W_poles", "W_total",
             "identity_error", "sigma", "num_gammas", "num_primes"] := by
  refine ⟨?_, by simp [WeilFunctional.compute], rfl⟩
  have hf : ∀ u, 0 < (WeilFunctional.gaussian_testfunc 20).1 u
      ∧ (WeilFunctional.gaussian_testfunc 20).1 u ≤ 1 := gauss_bounds 20
  have harch := arch_compute_bound hf
  have harch2 : ArchimideanTerm.compute (WeilFunctional.gaussian_testfunc 20).1
      ≤ 2 * 10 ^ 18 := le_trans (le_abs_self _) harch
  have hpoles := poles_lower_20
  rw [weil_compute_total [] 20 0 50, primes_zero_total, zeros_empty,
    sub_zero, sub_zero]
  have hdiff : (10 : ℝ) ^ 31 - 2 * 10 ^ 18
      ≤ 2 * (2 * 20 * Real.sqrt Real.pi * Real.exp ((20 : ℝ) ^ 2 / 4))
        - ArchimideanTerm.compute (WeilFunctional.gaussian_testfunc 20).1 := by
    linarith
  calc (1 / 10 ^ 45 : ℝ) < (10 : ℝ) ^ 31 - 2 * 10 ^ 18 := by norm_num
    _ ≤ 2 * (2 * 20 * Real.sqrt Real.pi * Real.exp ((20 : ℝ) ^ 2 / 4))
        - ArchimideanTerm.compute (WeilFunctional.gaussian_testfunc 20).1 := hdiff
    _ ≤ |2 * (2 * 20 * Real.sqrt Real.pi * Real.exp ((20 : ℝ) ^ 2 / 4))
        - ArchimideanTerm.compute (WeilFunctional.gaussian_testfunc 20).1| :=
        le_abs_self _

/-- Claim C3 (amended): the orchestrator performs no defect handling at all:
for every input it unconditionally returns the ordinary result pair whose
component dictionary always carries the same nine keys — no diagnostic is ever
attached to, or substituted for, the result — and the identity residual is
merely stored as the `identity_error` entry (and printed in verbose mode)
without being checked against any tolerance. -/
theorem weil_no_diagnostics (gammas : List ℝ) (sigma : ℝ) (num_primes dps : ℕ) :
    ((WeilFunctional.compute gammas sigma num_primes dps).2.map Prod.fst
      = ["W_archimedean", "W_zeros", "W_primes", "W_poles", "W_total",
         "identity_error", "sigma", "num_gammas", "num_primes"])
      ∧ ("identity_error", PyVal.mpf
            |(WeilFunctional.compute gammas sigma num_primes dps).1
              - ZerosContribution.compute gammas sigma|)
          ∈ (WeilFunctional.compute gammas sigma num_primes dps).2 :=
  ⟨weil_compute_keys gammas sigma num_primes dps,
   weil_compute_residual_mem gammas sigma num_primes dps⟩
